import Mathlib

/-!
# Verification of the power-sum quACK sketch

A shallow embedding of the power-sum sketch (`src/quack/src/quack_internal/psum.rs`)
and the decoded-quack suffix classification (`src/quack/src/decoded_quack.rs`)
for identifier width w = 32, whose prime field is GF(4294967291).

Field elements are modelled as `ZMod p`; the `ModularInteger` type of the
source (its module `arithmetic::modint` is not among the repository files) is
modelled from the spec: an element of GF(p) stored in [0, p), constructed from
a w-bit integer by reduction mod p, with inverse by Fermat's little theorem.

Fallible operations of the source (Rust panics: index out of bounds,
arithmetic underflow, failed assertions) are embedded as `Option`-valued
functions returning `none` exactly when the source panics.
-/

/-- The prime field modulus for identifier width w = 32 (spec §3). -/
def p : Nat := 4294967291

instance : NeZero p := ⟨by decide⟩

/-- Modelled from the spec (§3, `ModularInteger::new`): construction from a
machine integer reduces mod p. -/
def mkM (v : Nat) : ZMod p := (v : ZMod p)

/-- Square-and-multiply modular exponentiation with explicit fuel (the fuel
bounds the recursion depth at log2 of the exponent; 64 suffices for any
exponent below 2^64). -/
def powFuel (a : ZMod p) : Nat → Nat → ZMod p
  | 0, _ => 1
  | fuel + 1, e =>
    if e = 0 then 1
    else
      let h := powFuel a fuel (e / 2)
      if e % 2 = 0 then h * h else h * h * a

/-- Modelled from the spec (§4.1, `ModularInteger::inv`): multiplicative
inverse by Fermat's little theorem, a^(p-2). -/
def minv (a : ZMod p) : ZMod p := powFuel a 64 (p - 2)

/-- `modular_inverse_table` (psum.rs line 8): the i-th term is the inverse of
i+1 in modular arithmetic. -/
def modular_inverse_table (size : Nat) : List (ZMod p) :=
  (List.range size).map (fun i => minv (mkM (i + 1)))

/-- `PowerSumQuack` (psum.rs line 12): t power sums over GF(p), a 16-bit
count, and the inverse table derived from t.  `count` is a `Nat` kept below
2^16 by wrapping arithmetic. -/
structure PowerSumQuack where
  inverse_table : List (ZMod p)
  power_sums : List (ZMod p)
  count : Nat
deriving DecidableEq

namespace PowerSumQuack

/-- `PowerSumQuack::new` (psum.rs line 22). -/
def new (size : Nat) : PowerSumQuack :=
  { inverse_table := modular_inverse_table size
    power_sums := (List.range size).map (fun _ => 0)
    count := 0 }

/-- The loop of `insert` (psum.rs lines 33-40): with `y` the running power,
`for i in 0..(size-1) { power_sums[i] += y; y *= x; }` then
`power_sums[size-1] += y`. -/
def addPowers (x : ZMod p) : ZMod p → List (ZMod p) → List (ZMod p)
  | _, [] => []
  | y, [s] => [s + y]
  | y, s :: rest => (s + y) :: addPowers x (y * x) rest

/-- The loop of `remove` (psum.rs lines 47-54), identical with subtraction. -/
def subPowers (x : ZMod p) : ZMod p → List (ZMod p) → List (ZMod p)
  | _, [] => []
  | y, [s] => [s - y]
  | y, s :: rest => (s - y) :: subPowers x (y * x) rest

/-- `PowerSumQuack::insert` (psum.rs lines 31-43).  With `size = 0` the
source underflows `size - 1` and indexes out of bounds (a panic), embedded
as `none`.  The count increments with u16 wrapping. -/
def insert (q : PowerSumQuack) (value : Nat) : Option PowerSumQuack :=
  match q.power_sums with
  | [] => none
  | _ :: _ =>
    some { q with
      power_sums := addPowers (mkM value) (mkM value) q.power_sums
      count := (q.count + 1) % 65536 }

/-- `PowerSumQuack::remove` (psum.rs lines 45-57). -/
def remove (q : PowerSumQuack) (value : Nat) : Option PowerSumQuack :=
  match q.power_sums with
  | [] => none
  | _ :: _ =>
    some { q with
      power_sums := subPowers (mkM value) (mkM value) q.power_sums
      count := (q.count + 65535) % 65536 }

/-- `PowerSumQuack::threshold` (psum.rs line 59). -/
def threshold (q : PowerSumQuack) : Nat := q.power_sums.length

/-- One iteration of the outer loop of `to_coeffs_preallocated`
(psum.rs lines 125-131), computing the entry written to `coeffs[i]` where
`i = cs.length` is the next index: the buffer slot starts at zero, the inner
loop subtracts `power_sums[j] * coeffs[i-j-1]` for `j in 0..i`, then
`coeffs[i] -= power_sums[i]` and `coeffs[i] *= inverse_table[i]`.  The loop
reads `power_sums[j]` for every `j ≤ i` and `inverse_table[i]`; an index out
of bounds is a panic, embedded as `none`.  Reads `coeffs[i-j-1]` are always
in bounds. -/
def coeffNext (ps inv cs : List (ZMod p)) : Option (ZMod p) :=
  let i := cs.length
  if i < ps.length ∧ i < inv.length then
    some ((((List.range i).map
        (fun j => ps.getD j 0 * cs.getD (i - j - 1) 0)).foldl (· - ·) 0
      - ps.getD i 0) * inv.getD i 0)
  else none

/-- The outer loop `for i in 1..size` of `to_coeffs_preallocated`
(psum.rs lines 125-131): appends the remaining `k` coefficients. -/
def appendCoeffs (ps inv : List (ZMod p)) : Nat → List (ZMod p) → Option (List (ZMod p))
  | 0, cs => some cs
  | k + 1, cs =>
    match coeffNext ps inv cs with
    | none => none
    | some c => appendCoeffs ps inv k (cs ++ [c])

/-- `PowerSumQuack::to_coeffs` (psum.rs lines 108-114) composed with
`to_coeffs_preallocated` (lines 119-132) on a buffer of `count` zeros.
When `count = 0` the unconditional first statement
`coeffs[0] = -self.power_sums[0]` writes past the end of the empty buffer
(and, if `power_sums` is empty, reads past its end first): a panic either
way, embedded as `none`. -/
def to_coeffs (q : PowerSumQuack) : Option (List (ZMod p)) :=
  if q.count = 0 then none
  else
    match q.power_sums with
    | [] => none
    | p0 :: _ => appendCoeffs q.power_sums q.inverse_table (q.count - 1) [-p0]

/-- Modelled from the spec (§4.2, `MonicPolynomialEvaluator::eval`, whose
module `arithmetic::evaluator` is not among the repository files): Horner
evaluation of the monic polynomial `x^t + c₁x^(t-1) + … + c_t` at a point,
starting from the implicit leading 1. -/
def monicEval (coeffs : List (ZMod p)) (x : Nat) : ZMod p :=
  coeffs.foldl (fun r c => r * mkM x + c) 1

/-- `PowerSumQuack::decode_with_log` (psum.rs lines 85-104): when the count
is zero return the empty list, otherwise keep the log entries at which the
polynomial with coefficients `to_coeffs` evaluates to zero. -/
def decode_with_log (q : PowerSumQuack) (log : List Nat) : Option (List Nat) :=
  if q.count = 0 then some []
  else
    match to_coeffs q with
    | none => none
    | some coeffs => some (log.filter (fun x => decide (monicEval coeffs x = 0)))

/-- `PowerSumQuack::decode_by_factorization` (psum.rs lines 71-80),
parameterized by the factoring routine (`MonicPolynomialEvaluator::factor`,
whose module is not among the repository files): when the count is zero the
source returns `Some(vec![])` before computing coefficients or calling the
factorer.  The outer `Option` is panic-freedom; the inner one is the
source's return value (`none` = could not factor). -/
def decode_by_factorization
    (factor : List (ZMod p) → Option (List (ZMod p)))
    (q : PowerSumQuack) : Option (Option (List Nat)) :=
  if q.count = 0 then some (some [])
  else
    match to_coeffs q with
    | none => none
    | some coeffs =>
      match factor coeffs with
      | some roots => some (some (roots.map ZMod.val))
      | none => some none

/-- `SubAssign for PowerSumQuack` (psum.rs lines 135-148): assert equal
numbers of power sums, assert no count underflow (both panics, embedded as
`none`), then subtract power sums element-wise and subtract counts. -/
def sub_assign (a b : PowerSumQuack) : Option PowerSumQuack :=
  if a.power_sums.length = b.power_sums.length then
    if b.count ≤ a.count then
      some { inverse_table := a.inverse_table
             power_sums := List.zipWith (fun x y => x - y) a.power_sums b.power_sums
             count := a.count - b.count }
    else none
  else none

/-- `Sub for PowerSumQuack` (psum.rs lines 150-158) delegates to
`sub_assign`. -/
def sub (a b : PowerSumQuack) : Option PowerSumQuack := sub_assign a b

end PowerSumQuack

/-- A sketch operation: one call to `insert` or `remove`. -/
inductive SketchOp where
  | ins (v : Nat)
  | rem (v : Nat)
deriving DecidableEq

/-- Apply one operation to a sketch. -/
def applyOp (q : PowerSumQuack) : SketchOp → Option PowerSumQuack
  | .ins v => q.insert v
  | .rem v => q.remove v

/-- Apply a sequence of insert/remove operations, propagating panics. -/
def applyOps (q : PowerSumQuack) (ops : List SketchOp) : Option PowerSumQuack :=
  ops.foldlM applyOp q

/-- The identifiers inserted by a sequence of operations, in order. -/
def insertsOf (ops : List SketchOp) : List Nat :=
  ops.filterMap (fun op => match op with | .ins v => some v | .rem _ => none)

/-- The identifiers removed by a sequence of operations, in order. -/
def removesOf (ops : List SketchOp) : List Nat :=
  ops.filterMap (fun op => match op with | .rem v => some v | .ins _ => none)

/-- `DecodedQuack` (decoded_quack.rs lines 8-13): the log and the ordered
list of log indices whose entries are roots of the sketch's polynomial. -/
structure DecodedQuack where
  log : List Nat
  indexes : List Nat
deriving DecidableEq

namespace DecodedQuack

/-- `DecodedQuack::decode` (decoded_quack.rs lines 32-52): compute the
coefficients from `count` power sums (its `to_polynomial_coefficients` is
not among the repository files; modelled from the spec §4.4, it is the
Newton conversion `to_coeffs_preallocated` of psum.rs on a buffer of `count`
zeros, i.e. `to_coeffs`), then keep the indices of the log entries at which
the polynomial evaluates to zero. -/
def decode (q : PowerSumQuack) (log : List Nat) : Option DecodedQuack :=
  match q.to_coeffs with
  | none => none
  | some coeffs =>
    some { log := log
           indexes := (List.range log.length).filter
             (fun i => decide (PowerSumQuack.monicEval coeffs (log.getD i 0) = 0)) }

/-- The `while i > 0` loop of `num_suffix` (decoded_quack.rs lines 63-71):
`if indexes[i-1] == last { last -= 1; count += 1; i -= 1 } else break`.
The decrement `last -= 1` underflows (a panic in the source) when `last`
is zero, embedded as `none`. -/
def numSuffixLoop (indexes : List Nat) : Nat → Nat → Nat → Option Nat
  | _, count, 0 => some count
  | 0, count, i + 1 =>
    if indexes.getD i 0 = 0 then none else some count
  | l + 1, count, i + 1 =>
    if indexes.getD i 0 = l + 1 then numSuffixLoop indexes l (count + 1) i
    else some count

/-- `DecodedQuack::num_suffix` (decoded_quack.rs lines 56-74).  With a
nonempty index list over an empty log, `self.log.len() - 1` underflows
(`none`); otherwise the loop runs from `last = log.length - 1` and
`i = indexes.length`. -/
def num_suffix (d : DecodedQuack) : Option Nat :=
  if d.indexes.isEmpty then some 0
  else
    match d.log.length with
    | 0 => none
    | n + 1 => numSuffixLoop d.indexes n 0 d.indexes.length

/-- `DecodedQuack::total_num_missing` (decoded_quack.rs lines 83-85). -/
def total_num_missing (d : DecodedQuack) : Nat := d.indexes.length

/-- `DecodedQuack::num_missing` (decoded_quack.rs lines 78-80), propagating
a panic of `num_suffix`. -/
def num_missing (d : DecodedQuack) : Option Nat :=
  (d.num_suffix).map (fun s => d.total_num_missing - s)

/-- `DecodedQuack::missing` (decoded_quack.rs lines 91-93): the prefix of
the index list before the suffix. -/
def missing (d : DecodedQuack) : Option (List Nat) :=
  (d.num_suffix).map (fun s => d.indexes.take (d.total_num_missing - s))

end DecodedQuack

/-! ## Lemmas about the insert/remove loops -/

namespace PowerSumQuack

theorem addPowers_length (x : ZMod p) :
    ∀ (ps : List (ZMod p)) (y : ZMod p), (addPowers x y ps).length = ps.length
  | [], _ => rfl
  | [_], _ => rfl
  | _ :: r :: rs, y => by
    have ih := addPowers_length x (r :: rs) (y * x)
    simp only [addPowers, List.length_cons] at ih ⊢
    omega

theorem subPowers_length (x : ZMod p) :
    ∀ (ps : List (ZMod p)) (y : ZMod p), (subPowers x y ps).length = ps.length
  | [], _ => rfl
  | [_], _ => rfl
  | _ :: r :: rs, y => by
    have ih := subPowers_length x (r :: rs) (y * x)
    simp only [subPowers, List.length_cons] at ih ⊢
    omega

theorem addPowers_getD (x : ZMod p) :
    ∀ (ps : List (ZMod p)) (y : ZMod p) (k : Nat), k < ps.length →
      (addPowers x y ps).getD k 0 = ps.getD k 0 + y * x ^ k
  | [], _, k, hk => absurd hk (by simp)
  | [s], y, k, hk => by
    obtain rfl : k = 0 := by simpa [Nat.lt_one_iff] using hk
    simp [addPowers]
  | s :: r :: rs, y, 0, _ => by simp [addPowers]
  | s :: r :: rs, y, k + 1, hk => by
    have ih := addPowers_getD x (r :: rs) (y * x) k (by simpa using hk)
    simp only [addPowers, List.getD_cons_succ] at ih ⊢
    rw [ih, pow_succ]
    ring

theorem subPowers_getD (x : ZMod p) :
    ∀ (ps : List (ZMod p)) (y : ZMod p) (k : Nat), k < ps.length →
      (subPowers x y ps).getD k 0 = ps.getD k 0 - y * x ^ k
  | [], _, k, hk => absurd hk (by simp)
  | [s], y, k, hk => by
    obtain rfl : k = 0 := by simpa [Nat.lt_one_iff] using hk
    simp [subPowers]
  | s :: r :: rs, y, 0, _ => by simp [subPowers]
  | s :: r :: rs, y, k + 1, hk => by
    have ih := subPowers_getD x (r :: rs) (y * x) k (by simpa using hk)
    simp only [subPowers, List.getD_cons_succ] at ih ⊢
    rw [ih, pow_succ]
    ring

theorem insert_eq_of_ne_nil {q : PowerSumQuack} (hne : q.power_sums ≠ []) (v : Nat) :
    q.insert v = some ⟨q.inverse_table, addPowers (mkM v) (mkM v) q.power_sums,
      (q.count + 1) % 65536⟩ := by
  cases h : q.power_sums with
  | nil => exact absurd h hne
  | cons s ps => simp [PowerSumQuack.insert, h]

theorem remove_eq_of_ne_nil {q : PowerSumQuack} (hne : q.power_sums ≠ []) (v : Nat) :
    q.remove v = some ⟨q.inverse_table, subPowers (mkM v) (mkM v) q.power_sums,
      (q.count + 65535) % 65536⟩ := by
  cases h : q.power_sums with
  | nil => exact absurd h hne
  | cons s ps => simp [PowerSumQuack.remove, h]

end PowerSumQuack

/-! ## The power-sum invariant (claim C1) -/

/-- The k-th power sum (exponent k+1) of a multiset of identifiers. -/
def sumPows (xs : List Nat) (k : Nat) : ZMod p :=
  (xs.map (fun v => mkM v ^ (k + 1))).sum

/-- The state invariant of a sketch reached from `new t` by inserting `ins`
and removing `rem`: t power sums, each the net power sum of the inserted
minus the removed identifiers, and the count the net number of operations
mod 2^16. -/
def SketchInv (t : Nat) (ins rem : List Nat) (q : PowerSumQuack) : Prop :=
  q.power_sums.length = t ∧ q.count < 65536 ∧
  (∀ k, k < t → q.power_sums.getD k 0 = sumPows ins k - sumPows rem k) ∧
  ((q.count : ZMod 65536) = (ins.length : ZMod 65536) - (rem.length : ZMod 65536))

theorem sketchInv_new (t : Nat) : SketchInv t [] [] (PowerSumQuack.new t) := by
  refine ⟨by simp [PowerSumQuack.new], by norm_num [PowerSumQuack.new], ?_, by
    simp [PowerSumQuack.new, sumPows]⟩
  intro k hk
  simp only [PowerSumQuack.new, sumPows, List.map_nil, List.sum_nil, sub_zero]
  rw [List.getD_eq_getElem _ _ (by simpa using hk)]
  simp

theorem sketchInv_insert {t : Nat} {ins rem : List Nat} {q : PowerSumQuack}
    (hinv : SketchInv t ins rem q) (ht : 1 ≤ t) (v : Nat) :
    ∃ q', q.insert v = some q' ∧ SketchInv t (ins ++ [v]) rem q' := by
  obtain ⟨hlen, hcnt, hsums, hcast⟩ := hinv
  have hne : q.power_sums ≠ [] := by
    intro h; rw [h] at hlen; simp at hlen; omega
  refine ⟨_, PowerSumQuack.insert_eq_of_ne_nil hne v, ?_, ?_, ?_, ?_⟩
  · show (PowerSumQuack.addPowers (mkM v) (mkM v) q.power_sums).length = t
    rw [PowerSumQuack.addPowers_length, hlen]
  · exact Nat.mod_lt _ (by norm_num)
  · intro k hk
    show (PowerSumQuack.addPowers (mkM v) (mkM v) q.power_sums).getD k 0 = _
    rw [PowerSumQuack.addPowers_getD (mkM v) q.power_sums (mkM v) k (by rw [hlen]; exact hk),
      hsums k hk]
    simp only [sumPows, List.map_append, List.sum_append, List.map_cons, List.map_nil,
      List.sum_cons, List.sum_nil]
    rw [pow_succ]
    ring
  · show (((q.count + 1) % 65536 : Nat) : ZMod 65536) = _
    rw [ZMod.natCast_mod]
    push_cast
    rw [hcast]
    simp only [List.length_append, List.length_cons, List.length_nil]
    push_cast
    ring

theorem sketchInv_remove {t : Nat} {ins rem : List Nat} {q : PowerSumQuack}
    (hinv : SketchInv t ins rem q) (ht : 1 ≤ t) (v : Nat) :
    ∃ q', q.remove v = some q' ∧ SketchInv t ins (rem ++ [v]) q' := by
  obtain ⟨hlen, hcnt, hsums, hcast⟩ := hinv
  have hne : q.power_sums ≠ [] := by
    intro h; rw [h] at hlen; simp at hlen; omega
  refine ⟨_, PowerSumQuack.remove_eq_of_ne_nil hne v, ?_, ?_, ?_, ?_⟩
  · show (PowerSumQuack.subPowers (mkM v) (mkM v) q.power_sums).length = t
    rw [PowerSumQuack.subPowers_length, hlen]
  · exact Nat.mod_lt _ (by norm_num)
  · intro k hk
    show (PowerSumQuack.subPowers (mkM v) (mkM v) q.power_sums).getD k 0 = _
    rw [PowerSumQuack.subPowers_getD (mkM v) q.power_sums (mkM v) k (by rw [hlen]; exact hk),
      hsums k hk]
    simp only [sumPows, List.map_append, List.sum_append, List.map_cons, List.map_nil,
      List.sum_cons, List.sum_nil]
    rw [pow_succ]
    ring
  · show (((q.count + 65535) % 65536 : Nat) : ZMod 65536) = _
    rw [ZMod.natCast_mod]
    push_cast
    rw [hcast]
    have h65535 : (65535 : ZMod 65536) = -1 := by decide
    rw [h65535]
    simp only [List.length_append, List.length_cons, List.length_nil]
    push_cast
    ring

theorem sketchInv_applyOps {t : Nat} (ht : 1 ≤ t) :
    ∀ (ops : List SketchOp) {ins rem : List Nat} {q : PowerSumQuack},
      SketchInv t ins rem q →
      ∃ q', applyOps q ops = some q' ∧
        SketchInv t (ins ++ insertsOf ops) (rem ++ removesOf ops) q'
  | [], ins, rem, q, hinv => ⟨q, rfl, by simpa [insertsOf, removesOf] using hinv⟩
  | .ins v :: ops, ins, rem, q, hinv => by
    obtain ⟨q1, h1, hinv1⟩ := sketchInv_insert hinv ht v
    obtain ⟨q', h2, hinv2⟩ := sketchInv_applyOps ht ops hinv1
    refine ⟨q', ?_, ?_⟩
    · show List.foldlM applyOp q (SketchOp.ins v :: ops) = some q'
      rw [List.foldlM_cons]
      show (applyOp q (.ins v)).bind _ = some q'
      rw [show applyOp q (.ins v) = some q1 from h1]
      exact h2
    · simpa [insertsOf, removesOf, List.append_assoc] using hinv2
  | .rem v :: ops, ins, rem, q, hinv => by
    obtain ⟨q1, h1, hinv1⟩ := sketchInv_remove hinv ht v
    obtain ⟨q', h2, hinv2⟩ := sketchInv_applyOps ht ops hinv1
    refine ⟨q', ?_, ?_⟩
    · show List.foldlM applyOp q (SketchOp.rem v :: ops) = some q'
      rw [List.foldlM_cons]
      show (applyOp q (.rem v)).bind _ = some q'
      rw [show applyOp q (.rem v) = some q1 from h1]
      exact h2
    · simpa [insertsOf, removesOf] using hinv2

theorem count_eq_of_cast_eq {a b : Nat} (ha : a < 65536) (hb : b < 65536)
    (h : (a : ZMod 65536) = (b : ZMod 65536)) : a = b := by
  have := congrArg ZMod.val h
  rwa [ZMod.val_cast_of_lt ha, ZMod.val_cast_of_lt hb] at this

/-- **C1.** For every sketch created with threshold `t ≥ 1` and every
sequence of insert/remove operations, the state invariant holds: the power
sums list has length exactly t; entry k is the sum of x^(k+1) over the net
multiset of inserted minus removed identifiers in GF(p); the count is the
number of inserts minus the number of removes modulo 2^16; and the state
after any permutation of the inserted (and removed) identifiers is
identical. -/
theorem quack_state_invariant (t : Nat) (ht : 1 ≤ t) (ops : List SketchOp) :
    ∃ q, applyOps (PowerSumQuack.new t) ops = some q ∧
      q.power_sums.length = t ∧
      (∀ k, k < t → q.power_sums.getD k 0 =
        ((insertsOf ops).map (fun v => mkM v ^ (k + 1))).sum
          - ((removesOf ops).map (fun v => mkM v ^ (k + 1))).sum) ∧
      ((q.count : ZMod 65536) =
        ((insertsOf ops).length : ZMod 65536) - ((removesOf ops).length : ZMod 65536)) ∧
      (∀ ops', (insertsOf ops').Perm (insertsOf ops) → (removesOf ops').Perm (removesOf ops) →
        ∃ q', applyOps (PowerSumQuack.new t) ops' = some q' ∧
          q'.power_sums = q.power_sums ∧ q'.count = q.count) := by
  obtain ⟨q, hq, hinv⟩ := sketchInv_applyOps ht ops (sketchInv_new t)
  rw [List.nil_append, List.nil_append] at hinv
  obtain ⟨hlen, hcnt, hsums, hcast⟩ := hinv
  refine ⟨q, hq, hlen, fun k hk => hsums k hk, hcast, ?_⟩
  intro ops' hip hrp
  obtain ⟨q', hq', hinv'⟩ := sketchInv_applyOps ht ops' (sketchInv_new t)
  rw [List.nil_append, List.nil_append] at hinv'
  obtain ⟨hlen', hcnt', hsums', hcast'⟩ := hinv'
  have hsum_eq : ∀ k, sumPows (insertsOf ops') k = sumPows (insertsOf ops) k :=
    fun k => (hip.map _).sum_eq
  have hsum_eq' : ∀ k, sumPows (removesOf ops') k = sumPows (removesOf ops) k :=
    fun k => (hrp.map _).sum_eq
  refine ⟨q', hq', ?_, ?_⟩
  · refine List.ext_getElem (by rw [hlen, hlen']) ?_
    intro i h1 h2
    rw [← List.getD_eq_getElem q'.power_sums 0 h1, ← List.getD_eq_getElem q.power_sums 0 h2,
      hsums' i (by rw [← hlen']; exact h1), hsums i (by rw [← hlen]; exact h2),
      hsum_eq, hsum_eq']
  · refine count_eq_of_cast_eq hcnt' hcnt ?_
    rw [hcast, hcast', hip.length_eq, hrp.length_eq]

/-- Witness for C1 at `t = 3` with inserts {1, 2} and a remove of 1. -/
theorem quack_state_invariant_witness :
    ∃ q, applyOps (PowerSumQuack.new 3) [.ins 1, .ins 2, .rem 1] = some q ∧
      q.power_sums.length = 3 ∧
      (∀ k, k < 3 → q.power_sums.getD k 0 =
        ((insertsOf [.ins 1, .ins 2, .rem 1]).map (fun v => mkM v ^ (k + 1))).sum
          - ((removesOf [.ins 1, .ins 2, .rem 1]).map (fun v => mkM v ^ (k + 1))).sum) ∧
      ((q.count : ZMod 65536) =
        ((insertsOf [.ins 1, .ins 2, .rem 1]).length : ZMod 65536)
          - ((removesOf [.ins 1, .ins 2, .rem 1]).length : ZMod 65536)) ∧
      (∀ ops', (insertsOf ops').Perm (insertsOf [.ins 1, .ins 2, .rem 1]) →
          (removesOf ops').Perm (removesOf [.ins 1, .ins 2, .rem 1]) →
        ∃ q', applyOps (PowerSumQuack.new 3) ops' = some q' ∧
          q'.power_sums = q.power_sums ∧ q'.count = q.count) :=
  quack_state_invariant 3 (by decide) [.ins 1, .ins 2, .rem 1]

/-! ## Insert/remove inverse (claim C7) and partiality at t = 0 (claim C10) -/

theorem subPowers_addPowers_cancel (x : ZMod p) (ps : List (ZMod p)) :
    PowerSumQuack.subPowers x x (PowerSumQuack.addPowers x x ps) = ps := by
  refine List.ext_getElem ?_ ?_
  · rw [PowerSumQuack.subPowers_length, PowerSumQuack.addPowers_length]
  · intro i h1 h2
    have hadd : i < (PowerSumQuack.addPowers x x ps).length := by
      rw [PowerSumQuack.addPowers_length]; exact h2
    rw [← List.getD_eq_getElem _ 0 h1, ← List.getD_eq_getElem ps 0 h2,
      PowerSumQuack.subPowers_getD x _ x i hadd,
      PowerSumQuack.addPowers_getD x ps x i h2]
    ring

/-- **C7.** For every sketch with a nonempty power-sums list (threshold
t ≥ 1, count within its 16-bit range) and every identifier, inserting and
then removing that identifier returns the sketch to exactly its previous
state: the same power sums, count and inverse table. -/
theorem insert_remove_inverse (q : PowerSumQuack) (hne : q.power_sums ≠ [])
    (hc : q.count < 65536) (v : Nat) :
    ∃ q1, q.insert v = some q1 ∧ q1.remove v = some q := by
  refine ⟨_, PowerSumQuack.insert_eq_of_ne_nil hne v, ?_⟩
  have hne1 : (PowerSumQuack.addPowers (mkM v) (mkM v) q.power_sums) ≠ [] := by
    intro h
    have := PowerSumQuack.addPowers_length (mkM v) q.power_sums (mkM v)
    rw [h] at this
    exact hne (List.eq_nil_of_length_eq_zero this.symm)
  rw [PowerSumQuack.remove_eq_of_ne_nil hne1 v]
  congr 1
  cases q with
  | mk it ps c =>
    simp only [PowerSumQuack.mk.injEq]
    refine ⟨trivial, subPowers_addPowers_cancel (mkM v) ps, ?_⟩
    simp only at hc ⊢
    omega

/-- Witness for C7: insert then remove 7 on a fresh threshold-3 sketch. -/
theorem insert_remove_inverse_witness :
    ∃ q1, (PowerSumQuack.new 3).insert 7 = some q1 ∧
      q1.remove 7 = some (PowerSumQuack.new 3) :=
  insert_remove_inverse (PowerSumQuack.new 3)
    (by simp [PowerSumQuack.new]) (by norm_num [PowerSumQuack.new]) 7

/-- **C10.** `insert` and `remove` are not total at threshold 0: on any
sketch whose power-sums list is empty — in particular `new 0` — both panic
(`size - 1` underflows and the indexing is out of bounds), while on any
sketch with a nonempty power-sums list both succeed. -/
theorem insert_remove_partial_at_zero (v : Nat) :
    (∀ q : PowerSumQuack, q.power_sums = [] → q.insert v = none ∧ q.remove v = none) ∧
    (PowerSumQuack.new 0).power_sums = [] ∧
    (∀ q : PowerSumQuack, q.power_sums ≠ [] →
      (q.insert v).isSome ∧ (q.remove v).isSome) := by
  refine ⟨?_, by simp [PowerSumQuack.new], ?_⟩
  · intro q h
    constructor <;> simp [PowerSumQuack.insert, PowerSumQuack.remove, h]
  · intro q h
    rw [PowerSumQuack.insert_eq_of_ne_nil h v, PowerSumQuack.remove_eq_of_ne_nil h v]
    simp

/-! ## Sketch subtraction (claim C5) -/

theorem zipWith_sub_getD :
    ∀ (xs ys : List (ZMod p)) (k : Nat), k < xs.length → xs.length = ys.length →
      (List.zipWith (fun x y => x - y) xs ys).getD k 0 = xs.getD k 0 - ys.getD k 0
  | [], _, k, hk, _ => absurd hk (by simp)
  | x :: xs, [], k, hk, hlen => by simp at hlen
  | x :: xs, y :: ys, 0, _, _ => by simp
  | x :: xs, y :: ys, k + 1, hk, hlen => by
    simp only [List.zipWith_cons_cons, List.getD_cons_succ]
    exact zipWith_sub_getD xs ys k (by simpa using hk) (by simpa using hlen)

/-- **C5.** Subtracting sketch `b` from sketch `a` is defined only when both
have the same number of power sums: it then subtracts power sums element-wise
in GF(p) and subtracts counts, keeping `a`'s inverse table; it fails (panics
via assertion) when the lengths differ, and — as the present source
additionally asserts — when `b.count > a.count`, rather than wrapping. -/
theorem sub_assign_spec (a b : PowerSumQuack) :
    (a.power_sums.length = b.power_sums.length → b.count ≤ a.count →
      ∃ c, PowerSumQuack.sub_assign a b = some c ∧
        c.power_sums.length = a.power_sums.length ∧
        (∀ k, k < a.power_sums.length →
          c.power_sums.getD k 0 = a.power_sums.getD k 0 - b.power_sums.getD k 0) ∧
        c.count = a.count - b.count ∧
        c.inverse_table = a.inverse_table) ∧
    (a.power_sums.length ≠ b.power_sums.length → PowerSumQuack.sub_assign a b = none) ∧
    (a.power_sums.length = b.power_sums.length → a.count < b.count →
      PowerSumQuack.sub_assign a b = none) := by
  refine ⟨?_, ?_, ?_⟩
  · intro hlen hcnt
    refine ⟨⟨a.inverse_table,
        List.zipWith (fun x y => x - y) a.power_sums b.power_sums, a.count - b.count⟩,
      ?_, ?_, ?_, rfl, rfl⟩
    · rw [PowerSumQuack.sub_assign, if_pos hlen, if_pos hcnt]
    · show (List.zipWith _ _ _).length = _
      rw [List.length_zipWith, hlen, Nat.min_self]
    · intro k hk
      exact zipWith_sub_getD a.power_sums b.power_sums k hk hlen
  · intro hlen
    rw [PowerSumQuack.sub_assign, if_neg hlen]
  · intro hlen hcnt
    rw [PowerSumQuack.sub_assign, if_pos hlen, if_neg (by omega)]

/-! ## Newton conversion (claims C2, C3, C6) -/

theorem getD_append_left {α : Type} (d : α) :
    ∀ (l l' : List α) (j : Nat), j < l.length → (l ++ l').getD j d = l.getD j d
  | [], _, j, hj => absurd hj (by simp)
  | a :: l, l', 0, _ => rfl
  | a :: l, l', j + 1, hj =>
    getD_append_left d l l' j (by simpa using hj)

theorem getD_append_length {α : Type} (d : α) :
    ∀ (l : List α) (a : α), (l ++ [a]).getD l.length d = a
  | [], _ => rfl
  | _ :: l, a => getD_append_length d l a

theorem foldl_sub_eq (a : ZMod p) :
    ∀ (l : List (ZMod p)), l.foldl (· - ·) a = a - l.sum
  | [] => by simp
  | x :: l => by
    rw [List.foldl_cons, foldl_sub_eq (a - x) l, List.sum_cons]
    ring

theorem appendCoeffs_spec (ps inv : List (ZMod p)) :
    ∀ (k : Nat) (cs : List (ZMod p)), cs ≠ [] →
      cs.length + k ≤ ps.length → cs.length + k ≤ inv.length →
      ∃ c, PowerSumQuack.appendCoeffs ps inv k cs = some c ∧
        c.length = cs.length + k ∧
        (∀ j, j < cs.length → c.getD j 0 = cs.getD j 0) ∧
        (∀ i, cs.length ≤ i → i < c.length →
          c.getD i 0 = (0 - ((List.range i).map
              (fun j => ps.getD j 0 * c.getD (i - j - 1) 0)).sum
            - ps.getD i 0) * inv.getD i 0)
  | 0, cs, _, _, _ =>
    ⟨cs, rfl, by omega, fun _ _ => rfl, fun i h1 h2 => by omega⟩
  | k + 1, cs, hne, hps, hinv => by
    have hips : cs.length < ps.length := by omega
    have hiinv : cs.length < inv.length := by omega
    set v : ZMod p := (0 - ((List.range cs.length).map
        (fun j => ps.getD j 0 * cs.getD (cs.length - j - 1) 0)).sum
      - ps.getD cs.length 0) * inv.getD cs.length 0 with hv
    have hnext : PowerSumQuack.coeffNext ps inv cs = some v := by
      rw [PowerSumQuack.coeffNext]
      simp only [if_pos (And.intro hips hiinv)]
      rw [foldl_sub_eq]
    obtain ⟨c, hc, hlen, hpre, hrec⟩ :=
      appendCoeffs_spec ps inv k (cs ++ [v]) (by simp)
        (by simp only [List.length_append, List.length_cons, List.length_nil]; omega)
        (by simp only [List.length_append, List.length_cons, List.length_nil]; omega)
    have happ : PowerSumQuack.appendCoeffs ps inv (k + 1) cs = some c := by
      rw [PowerSumQuack.appendCoeffs, hnext]
      exact hc
    have hlen' : c.length = cs.length + (k + 1) := by
      simp only [List.length_append, List.length_cons, List.length_nil] at hlen
      omega
    have hpre' : ∀ j, j < cs.length → c.getD j 0 = cs.getD j 0 := by
      intro j hj
      rw [hpre j (by simp only [List.length_append, List.length_cons, List.length_nil]; omega),
        getD_append_left 0 cs [v] j hj]
    refine ⟨c, happ, hlen', hpre', ?_⟩
    intro i h1 h2
    rcases Nat.eq_or_lt_of_le h1 with heq | hlt
    · -- the newly appended entry i = cs.length
      have hci : c.getD i 0 = v := by
        have hmem : i < (cs ++ [v]).length := by
          simp only [List.length_append, List.length_cons, List.length_nil]; omega
        rw [hpre i hmem, ← heq, getD_append_length 0 cs v]
      have hmaps : (List.range cs.length).map
            (fun j => ps.getD j 0 * c.getD (cs.length - j - 1) 0)
          = (List.range cs.length).map
            (fun j => ps.getD j 0 * cs.getD (cs.length - j - 1) 0) := by
        refine List.map_congr_left ?_
        intro j hj
        rw [List.mem_range] at hj
        rw [hpre' (cs.length - j - 1) (by omega)]
      rw [hci, hv, ← heq, hmaps]
    · -- entries beyond, by the inductive characterization
      exact hrec i (by simp only [List.length_append, List.length_cons,
        List.length_nil]; omega) h2

/-- Full characterization of `to_coeffs` on a sketch whose count n satisfies
1 ≤ n ≤ min(|power_sums|, |inverse_table|): it succeeds and its output obeys
the Newton recurrence of the source's loops. -/
theorem to_coeffs_spec (q : PowerSumQuack) (h1 : 1 ≤ q.count)
    (hps : q.count ≤ q.power_sums.length) (hinv : q.count ≤ q.inverse_table.length) :
    ∃ c, q.to_coeffs = some c ∧ c.length = q.count ∧
      c.getD 0 0 = -(q.power_sums.getD 0 0) ∧
      (∀ i, 1 ≤ i → i < q.count →
        c.getD i 0 = (-(q.power_sums.getD i 0)
          - ((List.range i).map
              (fun j => q.power_sums.getD j 0 * c.getD (i - j - 1) 0)).sum)
          * q.inverse_table.getD i 0) := by
  obtain ⟨p0, rest, hps0⟩ : ∃ p0 rest, q.power_sums = p0 :: rest := by
    cases h : q.power_sums with
    | nil => rw [h] at hps; simp at hps; omega
    | cons p0 rest => exact ⟨p0, rest, rfl⟩
  obtain ⟨c, hc, hlen, hpre, hrec⟩ :=
    appendCoeffs_spec q.power_sums q.inverse_table (q.count - 1) [-p0]
      (by simp) (by simp only [List.length_cons, List.length_nil]; omega)
      (by simp only [List.length_cons, List.length_nil]; omega)
  have hto : q.to_coeffs = some c := by
    rw [PowerSumQuack.to_coeffs, if_neg (by omega), hps0]
    rw [hps0] at hc
    exact hc
  refine ⟨c, hto, by simp only [List.length_cons, List.length_nil] at hlen; omega, ?_, ?_⟩
  · rw [hpre 0 (by simp), hps0]
    rfl
  · intro i hi1 hi2
    have := hrec i (by simpa using hi1)
      (by simp only [List.length_cons, List.length_nil] at hlen; omega)
    rw [this]
    ring

set_option maxRecDepth 8000

/-- **C2.** For every sketch with `1 ≤ count = n ≤` the number of power sums
(and of inverse-table entries; both are the threshold t for a real sketch),
`to_coeffs` returns a coefficient vector of length n obeying Newton's
identities: `c[0] = -p_1` and, for `1 ≤ i < n`,
`c[i] = (-p_(i+1) - Σ_(j<i) p_(j+1)·c[i-j-1]) · inverse_table[i]`;
and concretely, for w = 32 and t = 5, inserting the five spec identifiers
yields the coefficient vector of the regression test. -/
theorem to_coeffs_newton_identities (q : PowerSumQuack) (h1 : 1 ≤ q.count)
    (hps : q.count ≤ q.power_sums.length) (hinv : q.count ≤ q.inverse_table.length) :
    (∃ c, q.to_coeffs = some c ∧ c.length = q.count ∧
      c.getD 0 0 = -(q.power_sums.getD 0 0) ∧
      (∀ i, 1 ≤ i → i < q.count →
        c.getD i 0 = (-(q.power_sums.getD i 0)
          - ((List.range i).map
              (fun j => q.power_sums.getD j 0 * c.getD (i - j - 1) 0)).sum)
          * q.inverse_table.getD i 0)) ∧
    ((applyOps (PowerSumQuack.new 5) [.ins 3616712547, .ins 2333013068, .ins 2234311686,
        .ins 2462729946, .ins 670144905]).bind PowerSumQuack.to_coeffs
      = some [1567989721, 1613776244, 517289688, 17842621, 3562381446]) :=
  ⟨to_coeffs_spec q h1 hps hinv, by decide⟩

/-- Witness for C2 on the one-element sketch ⟨[1], [2], 1⟩. -/
theorem to_coeffs_newton_identities_witness :
    (∃ c, PowerSumQuack.to_coeffs ⟨[1], [2], 1⟩ = some c ∧
      c.length = PowerSumQuack.count ⟨[1], [2], 1⟩ ∧
      c.getD 0 0 = -(PowerSumQuack.power_sums ⟨[1], [2], 1⟩).getD 0 0 ∧
      (∀ i, 1 ≤ i → i < PowerSumQuack.count ⟨[1], [2], 1⟩ →
        c.getD i 0 = (-((PowerSumQuack.power_sums ⟨[1], [2], 1⟩).getD i 0)
          - ((List.range i).map
              (fun j => (PowerSumQuack.power_sums ⟨[1], [2], 1⟩).getD j 0
                * c.getD (i - j - 1) 0)).sum)
          * (PowerSumQuack.inverse_table ⟨[1], [2], 1⟩).getD i 0)) ∧
    ((applyOps (PowerSumQuack.new 5) [.ins 3616712547, .ins 2333013068, .ins 2234311686,
        .ins 2462729946, .ins 670144905]).bind PowerSumQuack.to_coeffs
      = some [1567989721, 1613776244, 517289688, 17842621, 3562381446]) :=
  to_coeffs_newton_identities ⟨[1], [2], 1⟩ (by decide) (by decide) (by decide)

/-- **C3.** For every sketch with positive count (at most the threshold) and
every identifier log, `decode_with_log` returns exactly the sub-sequence of
the log — order preserved, duplicates included — whose entries are roots of
the monic polynomial with coefficients `to_coeffs`; concretely, for w = 32
and t = 3, the difference of sketches over A = [1..6] and B = [1,3,4] has
count 3 and decodes from the log [1..6] to [2, 5, 6]. -/
theorem decode_with_log_spec (q : PowerSumQuack) (log : List Nat) (h1 : 1 ≤ q.count)
    (hps : q.count ≤ q.power_sums.length) (hinv : q.count ≤ q.inverse_table.length) :
    (∃ cs, q.to_coeffs = some cs ∧
      q.decode_with_log log
        = some (log.filter (fun x => decide (PowerSumQuack.monicEval cs x = 0)))) ∧
    (((applyOps (PowerSumQuack.new 3) [.ins 1, .ins 2, .ins 3, .ins 4, .ins 5, .ins 6]).bind
        fun qA => (applyOps (PowerSumQuack.new 3) [.ins 1, .ins 3, .ins 4]).bind
          fun qB => (PowerSumQuack.sub qA qB).bind
            fun qD => if qD.count = 3 then qD.decode_with_log [1, 2, 3, 4, 5, 6] else none)
      = some [2, 5, 6]) := by
  obtain ⟨cs, hcs, -⟩ := to_coeffs_spec q h1 hps hinv
  refine ⟨⟨cs, hcs, ?_⟩, by decide⟩
  rw [PowerSumQuack.decode_with_log, if_neg (by omega), hcs]

/-- Witness for C3 on the one-element sketch ⟨[1], [2], 1⟩ with log [2, 3]. -/
theorem decode_with_log_spec_witness :
    (∃ cs, PowerSumQuack.to_coeffs ⟨[1], [2], 1⟩ = some cs ∧
      PowerSumQuack.decode_with_log ⟨[1], [2], 1⟩ [2, 3]
        = some (([2, 3] : List Nat).filter
            (fun x => decide (PowerSumQuack.monicEval cs x = 0)))) ∧
    (((applyOps (PowerSumQuack.new 3) [.ins 1, .ins 2, .ins 3, .ins 4, .ins 5, .ins 6]).bind
        fun qA => (applyOps (PowerSumQuack.new 3) [.ins 1, .ins 3, .ins 4]).bind
          fun qB => (PowerSumQuack.sub qA qB).bind
            fun qD => if qD.count = 3 then qD.decode_with_log [1, 2, 3, 4, 5, 6] else none)
      = some [2, 5, 6]) :=
  decode_with_log_spec ⟨[1], [2], 1⟩ [2, 3] (by decide) (by decide) (by decide)

/-- **C6 (counterexample).** On a fresh sketch — count 0 — `to_coeffs` does
not return an empty coefficient vector: it panics (the source writes
`coeffs[0]` into the empty preallocated buffer). -/
theorem to_coeffs_empty_cex :
    (PowerSumQuack.new 3).count = 0 ∧ PowerSumQuack.to_coeffs (PowerSumQuack.new 3) = none :=
  ⟨rfl, by decide⟩

/-- **C6 (amended).** For every sketch with count 0, `decode_with_log`
returns the empty list and `decode_by_factorization` (for any factoring
routine) returns a successful empty result — success, not an error; the
Newton conversion `to_coeffs` itself, however, panics on the empty
coefficient buffer instead of returning an empty vector. -/
theorem decode_empty_sketch (q : PowerSumQuack) (h : q.count = 0) :
    (∀ log, q.decode_with_log log = some []) ∧
    (∀ factor, q.decode_by_factorization factor = some (some [])) ∧
    q.to_coeffs = none := by
  refine ⟨fun log => ?_, fun factor => ?_, ?_⟩ <;>
    simp [PowerSumQuack.decode_with_log, PowerSumQuack.decode_by_factorization,
      PowerSumQuack.to_coeffs, h]

/-- Witness for C6 (amended) on the fresh threshold-10 sketch. -/
theorem decode_empty_sketch_witness :
    (∀ log, (PowerSumQuack.new 10).decode_with_log log = some []) ∧
    (∀ factor, (PowerSumQuack.new 10).decode_by_factorization factor = some (some [])) ∧
    PowerSumQuack.to_coeffs (PowerSumQuack.new 10) = none :=
  decode_empty_sketch (PowerSumQuack.new 10) rfl

/-! ## The suffix-classification loop (claims C4, C9) -/

theorem getD_range (m k : Nat) (h : k < m) : (List.range m).getD k 0 = k := by
  rw [List.getD_eq_getElem _ _ (by simpa using h)]
  simp

theorem numSuffixLoop_some (I : List Nat) :
    ∀ (i last count : Nat), i ≤ last →
      ∃ s, DecodedQuack.numSuffixLoop I last count i = some (count + s) ∧ s ≤ i ∧
        (∀ j, j < s → I.getD (i - 1 - j) 0 = last - j) ∧
        (s = i ∨ I.getD (i - 1 - s) 0 ≠ last - s)
  | 0, last, count, _ =>
    ⟨0, by simp [DecodedQuack.numSuffixLoop], Nat.le_refl 0,
      fun j hj => absurd hj (by omega), Or.inl rfl⟩
  | i + 1, last, count, hle => by
    obtain ⟨l, rfl⟩ : ∃ l, last = l + 1 := ⟨last - 1, by omega⟩
    by_cases h : I.getD i 0 = l + 1
    · obtain ⟨s', hs', hle', hmatch, hmax⟩ := numSuffixLoop_some I i l (count + 1) (by omega)
      refine ⟨s' + 1, ?_, by omega, ?_, ?_⟩
      · rw [DecodedQuack.numSuffixLoop, if_pos h, hs']
        congr 1
        omega
      · intro j hj
        cases j with
        | zero => simpa using h
        | succ j' =>
          have hj' := hmatch j' (by omega)
          have e1 : i + 1 - 1 - (j' + 1) = i - 1 - j' := by omega
          have e2 : l + 1 - (j' + 1) = l - j' := by omega
          rw [e1, e2]
          exact hj'
      · rcases hmax with h1 | h2
        · exact Or.inl (by omega)
        · refine Or.inr ?_
          have e1 : i + 1 - 1 - (s' + 1) = i - 1 - s' := by omega
          have e2 : l + 1 - (s' + 1) = l - s' := by omega
          rw [e1, e2]
          exact h2
    · refine ⟨0, ?_, by omega, fun j hj => absurd hj (by omega), Or.inr ?_⟩
      · rw [DecodedQuack.numSuffixLoop, if_neg h, Nat.add_zero]
      · simpa using h

theorem numSuffixLoop_none (I : List Nat) :
    ∀ (i last count : Nat), last < i →
      (∀ j, j ≤ last → I.getD (i - 1 - j) 0 = last - j) →
      DecodedQuack.numSuffixLoop I last count i = none
  | 0, last, _, hlt, _ => absurd hlt (by omega)
  | i + 1, 0, count, _, hmatch => by
    have h0 : I.getD i 0 = 0 := by simpa using hmatch 0 (by omega)
    rw [DecodedQuack.numSuffixLoop, if_pos h0]
  | i + 1, l + 1, count, hlt, hmatch => by
    have h0 : I.getD i 0 = l + 1 := by simpa using hmatch 0 (by omega)
    rw [DecodedQuack.numSuffixLoop, if_pos h0]
    refine numSuffixLoop_none I i l (count + 1) (by omega) ?_
    intro j hj
    have := hmatch (j + 1) (by omega)
    have e1 : i + 1 - 1 - (j + 1) = i - 1 - j := by omega
    have e2 : l + 1 - (j + 1) = l - j := by omega
    rw [e1, e2] at this
    exact this

/-- What `DecodedQuack.decode` guarantees about its output: the log is kept,
the index list is a filter of `range log.length` (so no longer than the
log), and when it is not the whole range it is strictly shorter. -/
theorem decode_characterization (q : PowerSumQuack) (log : List Nat) (d : DecodedQuack)
    (h : DecodedQuack.decode q log = some d) :
    d.log = log ∧ d.indexes.length ≤ log.length ∧
    (d.indexes ≠ List.range log.length → d.indexes.length < log.length) := by
  cases hc : q.to_coeffs with
  | none => rw [DecodedQuack.decode, hc] at h; exact absurd h (by simp)
  | some coeffs =>
    rw [DecodedQuack.decode, hc] at h
    injection h with h
    subst h
    have hsub : ((List.range log.length).filter
        (fun i => decide (PowerSumQuack.monicEval coeffs (log.getD i 0) = 0))).Sublist
          (List.range log.length) := List.filter_sublist _
    have hlen : ((List.range log.length).filter
        (fun i => decide (PowerSumQuack.monicEval coeffs (log.getD i 0) = 0))).length
          ≤ log.length := by
      simpa using hsub.length_le
    refine ⟨rfl, hlen, ?_⟩
    intro hne
    rcases Nat.lt_or_ge ((List.range log.length).filter
        (fun i => decide (PowerSumQuack.monicEval coeffs (log.getD i 0) = 0))).length
        log.length with hlt | hge
    · exact hlt
    · exact absurd (hsub.eq_of_length (by rw [List.length_range]; omega)) hne

/-- Totality and characterization of `num_suffix` when the decoded index
list does not cover the whole log: it returns the length of the maximal
tail of consecutive indices ending at `log.length - 1`. -/
theorem num_suffix_total (d : DecodedQuack) (hlen : d.indexes.length < d.log.length) :
    ∃ s, d.num_suffix = some s ∧ s ≤ d.indexes.length ∧
      (∀ j, j < s → d.indexes.getD (d.indexes.length - 1 - j) 0 = d.log.length - 1 - j) ∧
      (s = d.indexes.length ∨
        d.indexes.getD (d.indexes.length - 1 - s) 0 ≠ d.log.length - 1 - s) := by
  by_cases hemp : d.indexes.isEmpty
  · have h0 : d.indexes.length = 0 := by
      rw [List.isEmpty_iff] at hemp
      rw [hemp, List.length_nil]
    exact ⟨0, by rw [DecodedQuack.num_suffix, if_pos hemp], by omega,
      fun j hj => absurd hj (by omega), Or.inl h0.symm⟩
  · obtain ⟨n, hn⟩ : ∃ n, d.log.length = n + 1 := ⟨d.log.length - 1, by omega⟩
    obtain ⟨s, hs, hle, hmatch, hmax⟩ :=
      numSuffixLoop_some d.indexes d.indexes.length n 0 (by omega)
    refine ⟨s, ?_, hle, ?_, ?_⟩
    · rw [DecodedQuack.num_suffix, if_neg hemp, hn]
      simpa using hs
    · intro j hj
      have := hmatch j hj
      rw [hn]
      have e : n + 1 - 1 - j = n - j := by omega
      rw [e]
      exact this
    · rcases hmax with h1 | h2
      · exact Or.inl h1
      · refine Or.inr ?_
        rw [hn]
        have e : n + 1 - 1 - s = n - s := by omega
        rw [e]
        exact h2

/-- When the decoded index list is the whole `range log.length` (every log
entry a root), the `num_suffix` loop decrements its cursor below zero. -/
theorem num_suffix_full_underflow (d : DecodedQuack) (hm : 1 ≤ d.log.length)
    (hidx : d.indexes = List.range d.log.length) :
    d.num_suffix = none := by
  obtain ⟨n, hn⟩ : ∃ n, d.log.length = n + 1 := ⟨d.log.length - 1, by omega⟩
  have hne : ¬d.indexes.isEmpty := by
    rw [hidx, hn]
    simp [List.isEmpty_iff, List.range_succ]
  have hlen : d.indexes.length = n + 1 := by rw [hidx, hn, List.length_range]
  rw [DecodedQuack.num_suffix, if_neg hne, hn, hlen]
  refine numSuffixLoop_none d.indexes (n + 1) n 0 (by omega) ?_
  intro j hj
  rw [hidx, hn, getD_range _ _ (by omega)]
  omega

/-- **C4 (counterexample).** A decoded result over the log [2] from a sketch
holding {2}: every log entry is a root, the index list is [0], the longest
consecutive tail ending at the last log position has length 1 — yet
`num_suffix` does not return it: the loop underflows its cursor (a panic). -/
theorem suffix_classification_cex :
    ((applyOps (PowerSumQuack.new 1) [.ins 2]).bind
      (fun q => DecodedQuack.decode q [2])) = some ⟨[2], [0]⟩ ∧
    DecodedQuack.num_suffix ⟨[2], [0]⟩ = none :=
  ⟨by decide, by decide⟩

/-- **C4 (amended).** For every decoded result whose index list is not the
full range of log positions (the underflow case of C9), `num_suffix` returns
the length of the longest tail of consecutive indices ending exactly at
`log.length - 1`, `total_num_missing` is the index-list length,
`num_missing` their difference, and `missing` the prefix before the suffix;
concretely, for t = 3, log [1..6], A = log, B = [1,3,4]:
total 3, suffix 2, missing-count 1, missing view [1]. -/
theorem suffix_classification (q : PowerSumQuack) (log : List Nat) (d : DecodedQuack)
    (hdec : DecodedQuack.decode q log = some d)
    (hnotfull : d.indexes ≠ List.range log.length) :
    (∃ s, d.num_suffix = some s ∧ s ≤ d.indexes.length ∧
      (∀ j, j < s → d.indexes.getD (d.indexes.length - 1 - j) 0 = log.length - 1 - j) ∧
      (s = d.indexes.length ∨
        d.indexes.getD (d.indexes.length - 1 - s) 0 ≠ log.length - 1 - s) ∧
      d.total_num_missing = d.indexes.length ∧
      d.num_missing = some (d.indexes.length - s) ∧
      d.missing = some (d.indexes.take (d.indexes.length - s))) ∧
    (((applyOps (PowerSumQuack.new 3) [.ins 1, .ins 2, .ins 3, .ins 4, .ins 5, .ins 6]).bind
        fun qA => (applyOps (PowerSumQuack.new 3) [.ins 1, .ins 3, .ins 4]).bind
          fun qB => (PowerSumQuack.sub qA qB).bind
            fun qD => DecodedQuack.decode qD [1, 2, 3, 4, 5, 6])
        = some ⟨[1, 2, 3, 4, 5, 6], [1, 4, 5]⟩ ∧
      DecodedQuack.total_num_missing ⟨[1, 2, 3, 4, 5, 6], [1, 4, 5]⟩ = 3 ∧
      DecodedQuack.num_suffix ⟨[1, 2, 3, 4, 5, 6], [1, 4, 5]⟩ = some 2 ∧
      DecodedQuack.num_missing ⟨[1, 2, 3, 4, 5, 6], [1, 4, 5]⟩ = some 1 ∧
      DecodedQuack.missing ⟨[1, 2, 3, 4, 5, 6], [1, 4, 5]⟩ = some [1]) := by
  obtain ⟨hlog, -, hshort⟩ := decode_characterization q log d hdec
  have hlen : d.indexes.length < d.log.length := by
    rw [hlog]
    exact hshort hnotfull
  obtain ⟨s, hs, hle, hmatch, hmax⟩ := num_suffix_total d hlen
  refine ⟨⟨s, hs, hle, ?_, ?_, rfl, ?_, ?_⟩, by decide, by decide, by decide, by decide,
    by decide⟩
  · intro j hj
    have := hmatch j hj
    rwa [hlog] at this
  · rcases hmax with h1 | h2
    · exact Or.inl h1
    · exact Or.inr (by rwa [hlog] at h2)
  · rw [DecodedQuack.num_missing, hs]
    rfl
  · rw [DecodedQuack.missing, hs]
    rfl

/-- Witness for C4 (amended): sketch ⟨[1], [2], 1⟩ decoded against the log
[2, 3] gives index list [0], which is not all of range 2. -/
theorem suffix_classification_witness :
    (∃ s, DecodedQuack.num_suffix ⟨[2, 3], [0]⟩ = some s ∧
      s ≤ (DecodedQuack.indexes ⟨[2, 3], [0]⟩).length ∧
      (∀ j, j < s → (DecodedQuack.indexes ⟨[2, 3], [0]⟩).getD
          ((DecodedQuack.indexes ⟨[2, 3], [0]⟩).length - 1 - j) 0
        = ([2, 3] : List Nat).length - 1 - j) ∧
      (s = (DecodedQuack.indexes ⟨[2, 3], [0]⟩).length ∨
        (DecodedQuack.indexes ⟨[2, 3], [0]⟩).getD
          ((DecodedQuack.indexes ⟨[2, 3], [0]⟩).length - 1 - s) 0
        ≠ ([2, 3] : List Nat).length - 1 - s) ∧
      DecodedQuack.total_num_missing ⟨[2, 3], [0]⟩
        = (DecodedQuack.indexes ⟨[2, 3], [0]⟩).length ∧
      DecodedQuack.num_missing ⟨[2, 3], [0]⟩
        = some ((DecodedQuack.indexes ⟨[2, 3], [0]⟩).length - s) ∧
      DecodedQuack.missing ⟨[2, 3], [0]⟩
        = some ((DecodedQuack.indexes ⟨[2, 3], [0]⟩).take
            ((DecodedQuack.indexes ⟨[2, 3], [0]⟩).length - s))) ∧
    (((applyOps (PowerSumQuack.new 3) [.ins 1, .ins 2, .ins 3, .ins 4, .ins 5, .ins 6]).bind
        fun qA => (applyOps (PowerSumQuack.new 3) [.ins 1, .ins 3, .ins 4]).bind
          fun qB => (PowerSumQuack.sub qA qB).bind
            fun qD => DecodedQuack.decode qD [1, 2, 3, 4, 5, 6])
        = some ⟨[1, 2, 3, 4, 5, 6], [1, 4, 5]⟩ ∧
      DecodedQuack.total_num_missing ⟨[1, 2, 3, 4, 5, 6], [1, 4, 5]⟩ = 3 ∧
      DecodedQuack.num_suffix ⟨[1, 2, 3, 4, 5, 6], [1, 4, 5]⟩ = some 2 ∧
      DecodedQuack.num_missing ⟨[1, 2, 3, 4, 5, 6], [1, 4, 5]⟩ = some 1 ∧
      DecodedQuack.missing ⟨[1, 2, 3, 4, 5, 6], [1, 4, 5]⟩ = some [1]) :=
  suffix_classification ⟨[1], [2], 1⟩ [2, 3] ⟨[2, 3], [0]⟩ (by decide) (by decide)

/-- **C9.** When the decoded index list covers the whole log — every log
entry a root, as in the sketch {2} decoded against [2] — the `num_suffix`
loop decrements its cursor `last` below zero (usize underflow, a panic)
instead of returning the log length; `num_suffix` is total whenever the
decoded index list is not the fully-covering range. -/
theorem num_suffix_underflow_on_full_cover :
    (((applyOps (PowerSumQuack.new 1) [.ins 2]).bind
        (fun q => DecodedQuack.decode q [2])) = some ⟨[2], [0]⟩ ∧
      ([0] : List Nat) = List.range 1 ∧
      DecodedQuack.num_suffix ⟨[2], [0]⟩ = none) ∧
    (∀ (q : PowerSumQuack) (log : List Nat) (d : DecodedQuack),
      DecodedQuack.decode q log = some d → 1 ≤ log.length →
      d.indexes = List.range log.length → d.num_suffix = none) ∧
    (∀ (q : PowerSumQuack) (log : List Nat) (d : DecodedQuack),
      DecodedQuack.decode q log = some d →
      d.indexes ≠ List.range log.length → (d.num_suffix).isSome) := by
  refine ⟨⟨by decide, by decide, by decide⟩, ?_, ?_⟩
  · intro q log d hdec hm hidx
    obtain ⟨hlog, -, -⟩ := decode_characterization q log d hdec
    exact num_suffix_full_underflow d (by rwa [hlog]) (by rwa [hlog])
  · intro q log d hdec hne
    obtain ⟨hlog, -, hshort⟩ := decode_characterization q log d hdec
    obtain ⟨s, hs, -⟩ := num_suffix_total d (by rw [hlog]; exact hshort hne)
    rw [hs]
    rfl

/-! ## Serialization (claim C8) -/

/-- Modelled from the spec (§6 wire format; the byte-level serializer is not
among the repository files — psum.rs lines 12-19 only mark the struct
serializable with the inverse table skipped): one power sum packs big-endian
into w/8 = 4 bytes. -/
def be32 (v : Nat) : List Nat :=
  [v / 16777216 % 256, v / 65536 % 256, v / 256 % 256, v % 256]

/-- Modelled from the spec (§6): the t power sums packed big-endian, in
order. -/
def serializeSums : List (ZMod p) → List Nat
  | [] => []
  | s :: rest => be32 s.val ++ serializeSums rest

/-- Modelled from the spec (§6): a sketch serializes to its t power sums at
4 bytes each followed by the 2-byte big-endian count; the inverse table is
not serialized. -/
def serializeQuack (q : PowerSumQuack) : List Nat :=
  serializeSums q.power_sums ++ [q.count / 256 % 256, q.count % 256]

/-- Modelled from the spec (§6): the receiver parses 4-byte big-endian power
sums until the trailing 2-byte count. -/
def parseSums : List Nat → Option (List (ZMod p) × Nat)
  | [c1, c2] => some ([], c1 * 256 + c2)
  | b0 :: b1 :: b2 :: b3 :: rest =>
    (parseSums rest).map
      (fun r => (mkM (((b0 * 256 + b1) * 256 + b2) * 256 + b3) :: r.1, r.2))
  | _ => none

/-- Modelled from the spec (§6): deserialization rebuilds the inverse table
from the threshold t implied by the byte length. -/
def deserializeQuack (bytes : List Nat) : Option PowerSumQuack :=
  (parseSums bytes).map (fun r =>
    { inverse_table := modular_inverse_table r.1.length
      power_sums := r.1
      count := r.2 })

theorem serializeSums_length :
    ∀ ps : List (ZMod p), (serializeSums ps).length = 4 * ps.length
  | [] => rfl
  | s :: rest => by
    simp only [serializeSums, be32, List.length_append, List.length_cons, List.length_nil,
      serializeSums_length rest]
    omega

theorem parseSums_serializeSums (c : Nat) (hc : c < 65536) :
    ∀ ps : List (ZMod p),
      parseSums (serializeSums ps ++ [c / 256 % 256, c % 256]) = some (ps, c)
  | [] => by
    show parseSums [c / 256 % 256, c % 256] = some ([], c)
    rw [parseSums]
    congr 2
    omega
  | s :: rest => by
    have hval : s.val < 4294967296 :=
      lt_trans (ZMod.val_lt s) (by norm_num [p])
    show parseSums (be32 s.val ++ serializeSums rest ++ [c / 256 % 256, c % 256])
      = some (s :: rest, c)
    rw [be32]
    show parseSums (_ :: _ :: _ :: _ :: (serializeSums rest ++ [c / 256 % 256, c % 256]))
      = some (s :: rest, c)
    rw [parseSums, parseSums_serializeSums c hc rest, Option.map]
    have hrecomb : ((s.val / 16777216 % 256 * 256 + s.val / 65536 % 256) * 256
        + s.val / 256 % 256) * 256 + s.val % 256 = s.val := by
      omega
    rw [hrecomb]
    show some ((s.val : ZMod p) :: rest, c) = some (s :: rest, c)
    rw [ZMod.natCast_rightInverse s]

/-- **C8.** (Spec-modelled: the byte-level wire format of §6; the repository
files carry only the serde markers, with the inverse table skipped.)  A
sketch serializes to exactly `t·(w/8) + 2 = 4t + 2` bytes — t big-endian
power sums then a 2-byte count — independently of its inverse table, and
deserializing those bytes yields a sketch with identical power sums and
count whose inverse table is rebuilt from t. -/
theorem serialization_roundtrip (q : PowerSumQuack) (hc : q.count < 65536) :
    (serializeQuack q).length = 4 * q.power_sums.length + 2 ∧
    (∀ it : List (ZMod p),
      serializeQuack ⟨it, q.power_sums, q.count⟩ = serializeQuack q) ∧
    deserializeQuack (serializeQuack q)
      = some ⟨modular_inverse_table q.power_sums.length, q.power_sums, q.count⟩ := by
  refine ⟨?_, fun it => rfl, ?_⟩
  · simp only [serializeQuack, List.length_append, List.length_cons, List.length_nil,
      serializeSums_length]
  · rw [deserializeQuack, serializeQuack, parseSums_serializeSums q.count hc q.power_sums]
    rfl

/-- Witness for C8 on the one-sum sketch ⟨[], [2], 1⟩ (whose stored inverse
table is deliberately empty, to show it plays no role). -/
theorem serialization_roundtrip_witness :
    (serializeQuack ⟨[], [2], 1⟩).length
      = 4 * (PowerSumQuack.power_sums ⟨[], [2], 1⟩).length + 2 ∧
    (∀ it : List (ZMod p),
      serializeQuack ⟨it, PowerSumQuack.power_sums ⟨[], [2], 1⟩,
        PowerSumQuack.count ⟨[], [2], 1⟩⟩ = serializeQuack ⟨[], [2], 1⟩) ∧
    deserializeQuack (serializeQuack ⟨[], [2], 1⟩)
      = some ⟨modular_inverse_table (PowerSumQuack.power_sums ⟨[], [2], 1⟩).length,
          PowerSumQuack.power_sums ⟨[], [2], 1⟩, PowerSumQuack.count ⟨[], [2], 1⟩⟩ :=
  serialization_roundtrip ⟨[], [2], 1⟩ (by decide)
